import Mathlib

/-!
Shallow embedding of the graphmodel metadata-resolution engine
(`src/graphSchema.ts`, which contains both `GraphSchema` and `GraphObject`,
and `src/graphProperty.ts`), together with theorems checking the
natural-language specification against it.

Classes that the repository references but that are not under `src/`
(`GraphMetadata`, `GraphMetadataContainer`, `GraphCategory`, `Graph`, the
collection classes) are modelled from the spec; each such definition carries a
doc comment starting with "Modelled from the spec:".
-/

namespace GraphModel

/-- Values carried by graph properties; the spec's scenarios use numbers. -/
abbrev V := Int

/-- A JavaScript value slot: `none` is `undefined`, the unset sentinel. -/
abbrev JSVal := Option V

/-- Identity of a `Graph` instance (owners and metadata are keyed by graph
identity). -/
abbrev GraphId := Nat

/-- A `GraphPropertyIdLike` property id. -/
abbrev PropId := Nat

/-- A `GraphCategoryIdLike` category id. -/
abbrev CatId := Nat

/-- Embeds `GraphProperty` (src/graphProperty.ts): `key` is the instance
identity (a graph object's property map is keyed by instance, not by id), and
`id` is the public `GraphPropertyIdLike`. -/
structure GraphProperty where
  key : Nat
  id : PropId
deriving DecidableEq, Repr

/-- Modelled from the spec (§3, §4.2): `GraphCategory` is not under `src/`.
`key` is the instance identity, `cid` the public `GraphCategoryIdLike`;
`derived` carries the `basedOn` parent. The spec requires the chain to be
acyclic, hence it is finite and can be embedded structurally. -/
inductive GraphCategory : Type where
  | base (key : Nat) (cid : CatId)
  | derived (key : Nat) (cid : CatId) (parent : GraphCategory)
deriving DecidableEq, Repr

/-- The public id of a category. -/
def GraphCategory.cid : GraphCategory → CatId
  | .base _ i => i
  | .derived _ i _ => i

/-- The `basedOn` parent pointer of a category. -/
def GraphCategory.basedOn : GraphCategory → Option GraphCategory
  | .base _ _ => none
  | .derived _ _ parent => some parent

/-- Association-list lookup keyed by property instance; this is JS `Map.get`
up to the caller flattening the absent case with `Option.join`. -/
def plookup : List (GraphProperty × JSVal) → GraphProperty → Option JSVal
  | [], _ => none
  | (q, w) :: rest, p => if q = p then some w else plookup rest p

/-- JS `Map.set`: overwrite in place if the key is present, append otherwise
(insertion order preserved). -/
def mapSet : List (GraphProperty × JSVal) → GraphProperty → JSVal → List (GraphProperty × JSVal)
  | [], p, v => [(p, v)]
  | (q, w) :: rest, p, v => if q = p then (q, v) :: rest else (q, w) :: mapSet rest p v

/-- JS `Map.delete`: remove the entry for the key, preserving the order of the
remaining entries. -/
def mapDelete : List (GraphProperty × JSVal) → GraphProperty → List (GraphProperty × JSVal)
  | [], _ => []
  | (q, w) :: rest, p => if q = p then rest else (q, w) :: mapDelete rest p

/-- Modelled from the spec (§3, §4.1): `GraphMetadata` is not under `src/`.
The behavior record for one definition and one owner: default value, optional
validator, the three flags, and (used by category metadata) the map of
property values this metadata itself owns. -/
structure GraphMetadata where
  defaultValue : JSVal
  validator : Option (JSVal → Bool)
  isImmutable : Bool
  isRemovable : Bool
  isSharable : Bool
  mprops : List (GraphProperty × JSVal)

/-- Modelled from the spec: `GraphMetadata.canValidate` is true when a
validator is configured. -/
def GraphMetadata.canValidate (m : GraphMetadata) : Bool :=
  m.validator.isSome

/-- Modelled from the spec: `GraphMetadata.validate` delegates to the
configured validator and accepts everything when none is configured. -/
def GraphMetadata.validate (m : GraphMetadata) (v : JSVal) : Bool :=
  match m.validator with
  | some f => f v
  | none => true

/-- Modelled from the spec (§3): category metadata "owns" a property when its
own map has an entry for it (`GraphMetadata.hasOwn`). -/
def GraphMetadata.hasOwn (m : GraphMetadata) (p : GraphProperty) : Bool :=
  (plookup m.mprops p).isSome

/-- Modelled from the spec (§4.5 step 2): the value a category metadata holds
for a property it owns (`GraphMetadata.get`). -/
def GraphMetadata.mget (m : GraphMetadata) (p : GraphProperty) : JSVal :=
  (plookup m.mprops p).join

mutual
/-- Embeds the `GraphSchema` tree (src/graphSchema.ts): the schema's own
category collection and its child schemas in registration order. The tree is
finite and acyclic by construction (spec §4.4). -/
inductive GraphSchema : Type where
  | mk (cats : List GraphCategory) (children : SchemaList)
/-- Child-schema list in registration order. -/
inductive SchemaList : Type where
  | snil
  | scons (s : GraphSchema) (rest : SchemaList)
end

/-- The categories defined directly on a schema. -/
def schemaCats : GraphSchema → List GraphCategory
  | .mk cats _ => cats

/-- Modelled from the spec: `GraphCategoryCollection.get(id)` (the collection
class is not under `src/`) returns the schema's own category with the given
id, if any. -/
def colGet : List GraphCategory → CatId → Option GraphCategory
  | [], _ => none
  | c :: rest, i => if c.cid = i then some c else colGet rest i

mutual
/-- Embeds `GraphSchema.allSchemas` (graphSchema.ts:121-128): yields the schema
itself first, then each child's subtree depth-first in registration order. -/
def allSchemas : GraphSchema → List GraphSchema
  | .mk cats ch => .mk cats ch :: allSchemasL ch
/-- The `allSchemas` sequences of a child list, concatenated in order. -/
def allSchemasL : SchemaList → List GraphSchema
  | .snil => []
  | .scons s rest => allSchemas s ++ allSchemasL rest
end

/-- The first schema in the list whose own collection resolves the id
(the loop body of `GraphSchema.findCategory`). -/
def findFirst : List GraphSchema → CatId → Option GraphCategory
  | [], _ => none
  | s :: rest, i =>
    match colGet (schemaCats s) i with
    | some c => some c
    | none => findFirst rest i

/-- Embeds `GraphSchema.findCategory` (graphSchema.ts:133-143): scan
`allSchemas()` and return the first schema-local match. -/
def GraphSchema.findCategory (s : GraphSchema) (i : CatId) : Option GraphCategory :=
  findFirst (allSchemas s) i

/-- The `"add" | "delete"` discriminator of category-changed events. -/
inductive ChangeKind : Type where
  | add
  | delete
deriving DecidableEq, Repr

/-- Events raised by a graph object: `_raiseOnCategoryChanged` carries the
category, `_raiseOnPropertyChanged` carries the property's public id
(graphSchema.ts:636-650). -/
inductive Event : Type where
  | categoryChanged (change : ChangeKind) (category : GraphCategory)
  | propertyChanged (id : PropId)
deriving DecidableEq, Repr

/-- Modelled from the spec (§4.1): the per-owner metadata tables of
`GraphMetadataContainer` and the graph-to-schema association (`Graph` is not
under `src/`). `propMetadata p (some g)` is `p.getMetadata(g)`,
`propMetadata p none` is `p.createDefaultMetadata()`, and `catMetadata c g` is
`c.getMetadata(g)`. The spec's invariant that metadata for a
(definition, owner) pair is created once and reused makes it a pure function
of the pair. -/
structure Env where
  propMetadata : GraphProperty → Option GraphId → GraphMetadata
  catMetadata : GraphCategory → GraphId → GraphMetadata
  graphSchema : GraphId → GraphSchema

/-- `property.getMetadata(owner)` for a property and an owning graph. -/
def Env.getMetadata (env : Env) (p : GraphProperty) (g : GraphId) : GraphMetadata :=
  env.propMetadata p (some g)

/-- `property.createDefaultMetadata()`: the ownerless metadata. -/
def Env.createDefaultMetadata (env : Env) (p : GraphProperty) : GraphMetadata :=
  env.propMetadata p none

/-- Modelled from the spec (§4.6): `Graph._importMetadata` (class `Graph` is
not under `src/`) returns/creates the destination graph's own metadata entry
for the definition, whatever the source graph was. -/
def Env.importMetadata (env : Env) (dest : GraphId) (_src : Option GraphId)
    (p : GraphProperty) : GraphMetadata :=
  env.propMetadata p (some dest)

/-- Embeds `GraphObject` state (graphSchema.ts:230-234): write-once owner, the
category set (insertion order), and the property map (insertion order). -/
structure GraphObject where
  owner : Option GraphId
  categories : List GraphCategory
  properties : List (GraphProperty × JSVal)
deriving DecidableEq, Repr

/-- The `basedOn`-chain walk inside `GraphObject._find`
(graphSchema.ts:656-662): starting from one category, return the first
metadata along the chain that owns the property. -/
def chainFind (env : Env) (g : GraphId) (p : GraphProperty) : GraphCategory → Option GraphMetadata
  | .base key i =>
    let m := env.catMetadata (.base key i) g
    if m.hasOwn p then some m else none
  | .derived key i parent =>
    let m := env.catMetadata (.derived key i parent) g
    if m.hasOwn p then some m else chainFind env g p parent

/-- The outer loop of `GraphObject._find` over the object's own categories. -/
def catsFind (env : Env) (g : GraphId) (p : GraphProperty) :
    List GraphCategory → Option GraphMetadata
  | [] => none
  | c :: rest =>
    match chainFind env g p c with
    | some m => some m
    | none => catsFind env g p rest

/-- Embeds `GraphObject._find` (graphSchema.ts:652-666): only runs when the
object has an owner. -/
def GraphObject.find (env : Env) (o : GraphObject) (p : GraphProperty) : Option GraphMetadata :=
  match o.owner with
  | some g => catsFind env g p o.categories
  | none => none

/-- Embeds `GraphObject.get` (graphSchema.ts:437-454) for a property instance:
own stored value, then `_find(...)?.get(...)`, then — only when an owner
exists — the owner-scoped default value. -/
def GraphObject.get (env : Env) (o : GraphObject) (p : GraphProperty) : JSVal :=
  let value := (plookup o.properties p).join
  let value :=
    match value with
    | some v => some v
    | none =>
      match GraphObject.find env o p with
      | some m => m.mget p
      | none => none
  match value with
  | some v => some v
  | none =>
    match o.owner with
    | some g => (env.getMetadata p g).defaultValue
    | none => none

/-- Embeds `GraphObject.delete` (graphSchema.ts:501-515): returns the boolean
result, the new state, and the raised events. -/
def GraphObject.delete (env : Env) (o : GraphObject) (p : GraphProperty) :
    Bool × GraphObject × List Event :=
  if (plookup o.properties p).isNone then (false, o, [])
  else
    let metadata :=
      match o.owner with
      | some g => env.getMetadata p g
      | none => env.createDefaultMetadata p
    if !metadata.isRemovable then (false, o, [])
    else (true, ⟨o.owner, o.categories, mapDelete o.properties p⟩,
      [Event.propertyChanged p.id])

/-- Embeds `GraphObject.set` (graphSchema.ts:464-496): the unset sentinel
delegates to `delete`; otherwise equal-value early return, then the immutable
and validator checks against the resolved metadata, then store and raise. -/
def GraphObject.set (env : Env) (o : GraphObject) (p : GraphProperty) (value : JSVal) :
    GraphObject × List Event :=
  match value with
  | none =>
    let r := GraphObject.delete env o p
    (r.2.1, r.2.2)
  | some v =>
    let ownValue := (plookup o.properties p).join
    if some v = ownValue then (o, [])
    else
      let metadata :=
        match o.owner with
        | some g => env.getMetadata p g
        | none => env.createDefaultMetadata p
      if ownValue.isSome && metadata.isImmutable then (o, [])
      else if metadata.canValidate && !metadata.validate (some v) then (o, [])
      else (⟨o.owner, o.categories, mapSet o.properties p (some v)⟩,
        [Event.propertyChanged p.id])

/-- Embeds `GraphObject.addCategory` (graphSchema.ts:372-381). -/
def GraphObject.addCategory (o : GraphObject) (c : GraphCategory) :
    GraphObject × List Event :=
  if c ∈ o.categories then (o, [])
  else (⟨o.owner, o.categories ++ [c], o.properties⟩,
    [Event.categoryChanged ChangeKind.add c])

/-- Removal of one category from the object's set (JS `Set.delete`). -/
def catErase : List GraphCategory → GraphCategory → List GraphCategory
  | [], _ => []
  | x :: rest, c => if x = c then rest else x :: catErase rest c

/-- The three JS result shapes of `deleteCategory`: a removed category, a
boolean, or `undefined`. -/
inductive DelCatResult : Type where
  | cat (c : GraphCategory)
  | bool (b : Bool)
  | undef
deriving DecidableEq, Repr

/-- Embeds `GraphObject.deleteCategory` (graphSchema.ts:386-405) when called
with a category instance: the instance is the resolved category, so the result
is always a boolean. -/
def GraphObject.deleteCategoryObj (o : GraphObject) (c : GraphCategory) :
    DelCatResult × GraphObject × List Event :=
  if c ∈ o.categories then
    (DelCatResult.bool true, ⟨o.owner, catErase o.categories c, o.properties⟩,
      [Event.categoryChanged ChangeKind.delete c])
  else (DelCatResult.bool false, o, [])

/-- Embeds `GraphObject.deleteCategory` (graphSchema.ts:386-405) when called
with a category id: the id is resolved through `this.schema?.findCategory`;
when that yields nothing the code returns `undefined`. -/
def GraphObject.deleteCategoryById (env : Env) (o : GraphObject) (i : CatId) :
    DelCatResult × GraphObject × List Event :=
  match (o.owner.map env.graphSchema).bind (fun s => GraphSchema.findCategory s i) with
  | none => (DelCatResult.undef, o, [])
  | some c =>
    if c ∈ o.categories then
      (DelCatResult.cat c, ⟨o.owner, catErase o.categories c, o.properties⟩,
        [Event.categoryChanged ChangeKind.delete c])
    else (DelCatResult.bool false, o, [])

/-- Loop body of `GraphObject.copyCategories` (graphSchema.ts:528-535),
threading the destination state; `_importMetadata`'s cache side effect has no
observable footprint in the pure model. -/
def copyCategoriesLoop : GraphObject → List GraphCategory → GraphObject × List Event × Bool
  | dst, [] => (dst, [], false)
  | dst, c :: rest =>
    if c ∈ dst.categories then copyCategoriesLoop dst rest
    else
      let dst' : GraphObject := ⟨dst.owner, dst.categories ++ [c], dst.properties⟩
      let r := copyCategoriesLoop dst' rest
      (r.1, Event.categoryChanged ChangeKind.add c :: r.2.1, true)

/-- Embeds `GraphObject.copyCategories` (graphSchema.ts:520-537). -/
def GraphObject.copyCategories (dst src : GraphObject) : Bool × GraphObject × List Event :=
  if src.categories.isEmpty then (false, dst, [])
  else
    let r := copyCategoriesLoop dst src.categories
    (r.2.2, r.1, r.2.1)

/-- The skip tests of the `copyProperties` loop (graphSchema.ts:556-567): when
the destination has an owner, the imported metadata blocks the copy if it is
not sharable, or immutable with an existing value, or its validator rejects
the value; with no owner there is no metadata and nothing blocks. -/
def copySkip (env : Env) (downer sowner : Option GraphId) (ownValue : JSVal)
    (p : GraphProperty) (value : JSVal) : Bool :=
  match downer.map fun g => env.importMetadata g sowner p with
  | some m =>
    !m.isSharable || (m.isImmutable && ownValue.isSome) ||
      (m.canValidate && !m.validate value)
  | none => false

/-- Loop body of `GraphObject.copyProperties` (graphSchema.ts:551-571):
equal-value skip, then the `copySkip` checks, then overwrite and raise. -/
def copyPropertiesLoop (env : Env) (downer sowner : Option GraphId) :
    GraphObject → List (GraphProperty × JSVal) → GraphObject × List Event × Bool
  | dst, [] => (dst, [], false)
  | dst, (p, value) :: rest =>
    let ownValue := (plookup dst.properties p).join
    if value = ownValue then copyPropertiesLoop env downer sowner dst rest
    else if copySkip env downer sowner ownValue p value then
      copyPropertiesLoop env downer sowner dst rest
    else
      let dst' : GraphObject := ⟨dst.owner, dst.categories, mapSet dst.properties p value⟩
      let r := copyPropertiesLoop env downer sowner dst' rest
      (r.1, Event.propertyChanged p.id :: r.2.1, true)

/-- Embeds `GraphObject.copyProperties` (graphSchema.ts:542-574). -/
def GraphObject.copyProperties (env : Env) (dst src : GraphObject) :
    Bool × GraphObject × List Event :=
  if src.properties.isEmpty then (false, dst, [])
  else
    let r := copyPropertiesLoop env dst.owner src.owner dst src.properties
    (r.2.2, r.1, r.2.1)

/-- Embeds `GraphObject._setOwner` (graphSchema.ts:619-623): assignment only
when no owner is set yet. -/
def GraphObject.setOwner (o : GraphObject) (g : GraphId) : GraphObject :=
  match o.owner with
  | none => ⟨some g, o.categories, o.properties⟩
  | some _ => o

/-! ### Operation sequences over a graph object -/

/-- The public mutating operations of a graph object, used to state
whole-lifetime invariants. -/
inductive Op : Type where
  | setP (p : GraphProperty) (v : JSVal)
  | deleteP (p : GraphProperty)
  | addCat (c : GraphCategory)
  | delCatObj (c : GraphCategory)
  | delCatId (i : CatId)
  | copyProps (src : GraphObject)
  | copyCats (src : GraphObject)
  | setOwner (g : GraphId)

/-- The state reached after one public operation. -/
def applyOp (env : Env) (o : GraphObject) : Op → GraphObject
  | .setP p v => (GraphObject.set env o p v).1
  | .deleteP p => (GraphObject.delete env o p).2.1
  | .addCat c => (GraphObject.addCategory o c).1
  | .delCatObj c => (GraphObject.deleteCategoryObj o c).2.1
  | .delCatId i => (GraphObject.deleteCategoryById env o i).2.1
  | .copyProps src => (GraphObject.copyProperties env o src).2.1
  | .copyCats src => (GraphObject.copyCategories o src).2.1
  | .setOwner g => GraphObject.setOwner o g

/-- The state reached after a sequence of public operations. -/
def runOps (env : Env) : GraphObject → List Op → GraphObject
  | o, [] => o
  | o, op :: rest => runOps env (applyOp env o op) rest

/-- No stored property value is the unset sentinel. -/
def noSentinel (o : GraphObject) : Bool :=
  o.properties.all fun e => e.2.isSome

/-- An operation only feeds sentinel-free source objects into `copyProperties`
(objects that themselves went through public operations satisfy this). -/
def opOK : Op → Bool
  | .copyProps src => noSentinel src
  | _ => true

/-- Every operation of the sequence is acceptable in the sense of `opOK`. -/
def opsOK (ops : List Op) : Bool :=
  ops.all opOK

/-! ### Spec-side definitions

Each of the following definitions is written from the spec's words, to be
compared with the corresponding definition embedded from the source. -/

/-- Spec side (§4.5 `get`, claim C2): a category followed by its full
`basedOn` chain. -/
def chainList : GraphCategory → List GraphCategory
  | .base key i => [.base key i]
  | .derived key i parent => .derived key i parent :: chainList parent

/-- The object's categories in search order: each category followed by its
full `basedOn` chain, before the next category. -/
def chainsOf : List GraphCategory → List GraphCategory
  | [] => []
  | c :: rest => chainList c ++ chainsOf rest

/-- The first category in a list whose per-owner metadata owns the
property. -/
def firstOwning (env : Env) (g : GraphId) (p : GraphProperty) :
    List GraphCategory → Option GraphCategory
  | [] => none
  | c :: rest =>
    if (env.catMetadata c g).hasOwn p then some c else firstOwning env g p rest

/-- Spec side (§4.5 `get` step 2): the metadata of the first category —
searching the object's category set, each walked up its `basedOn` chain —
whose per-owner metadata explicitly owns the property. -/
def specOwningMeta (env : Env) (g : GraphId) (p : GraphProperty)
    (cats : List GraphCategory) : Option GraphMetadata :=
  (firstOwning env g p (chainsOf cats)).map fun c => env.catMetadata c g

/-- Spec side (§4.5 `get`, claim C2): resolution order — own stored value if
present; otherwise the owning category metadata's value; otherwise, with an
owner, the property's per-owner default; otherwise no value. -/
def specResolve (env : Env) (o : GraphObject) (p : GraphProperty) : JSVal :=
  match plookup o.properties p with
  | some v => v
  | none =>
    let fromCat : JSVal :=
      match o.owner with
      | some g =>
        match specOwningMeta env g p o.categories with
        | some m => m.mget p
        | none => none
      | none => none
    match fromCat with
    | some v => some v
    | none =>
      match o.owner with
      | some g => (env.propMetadata p (some g)).defaultValue
      | none => none

/-- Spec side (§4.5 `delete`, claim C5): no-op returning false if no stored
value exists or the metadata marks the property non-removable; otherwise
remove, raise a property-changed event, and return true. -/
def deleteSpec (env : Env) (o : GraphObject) (p : GraphProperty) :
    Bool × GraphObject × List Event :=
  let metadata :=
    match o.owner with
    | some g => env.getMetadata p g
    | none => env.createDefaultMetadata p
  if (plookup o.properties p).isNone || !metadata.isRemovable then (false, o, [])
  else (true, ⟨o.owner, o.categories, mapDelete o.properties p⟩,
    [Event.propertyChanged p.id])

/-- Spec side (claim C4 as amended): setting a non-sentinel value equal to the
stored one is a silent no-op; otherwise immutability with an existing value or
a rejecting validator silently rejects the write; otherwise store and raise
one property-changed event. -/
def setAmended (env : Env) (o : GraphObject) (p : GraphProperty) (v : V) :
    GraphObject × List Event :=
  let stored := (plookup o.properties p).join
  if stored = some v then (o, [])
  else
    let metadata :=
      match o.owner with
      | some g => env.getMetadata p g
      | none => env.createDefaultMetadata p
    if (stored.isSome && metadata.isImmutable) ||
        (metadata.canValidate && !metadata.validate (some v)) then (o, [])
    else (⟨o.owner, o.categories, mapSet o.properties p (some v)⟩,
      [Event.propertyChanged p.id])

mutual
/-- Spec side (§3, claim C6): category lookup scans the schema itself before
any descendant, then the descendants depth-first in child-registration order,
returning the first match. -/
def specFindCategory : GraphSchema → CatId → Option GraphCategory
  | .mk cats ch, i =>
    match colGet cats i with
    | some c => some c
    | none => specFindL ch i
/-- Spec side: lookup across a child-schema list in registration order. -/
def specFindL : SchemaList → CatId → Option GraphCategory
  | .snil, _ => none
  | .scons s rest, i =>
    match specFindCategory s i with
    | some c => some c
    | none => specFindL rest i
end

/-- Spec side (claim C8): whether one (property, value) pair of the source is
actually copied — the value differs from the destination's, and the imported
metadata (when the destination has an owner) is sharable, not blocked by
immutability with an existing value, and does not reject the value. -/
def copyDecision (env : Env) (downer sowner : Option GraphId)
    (props : List (GraphProperty × JSVal)) (p : GraphProperty) (value : JSVal) : Bool :=
  let ownValue := (plookup props p).join
  if value = ownValue then false
  else !copySkip env downer sowner ownValue p value

/-- Spec side (claim C8): `copyProperties` writes exactly the pairs selected
by `copyDecision`, raises one property-changed event per written pair, and
returns whether at least one value was actually written. -/
def copyPropsSpec (env : Env) (dst src : GraphObject) : Bool × GraphObject × List Event :=
  if src.properties.isEmpty then (false, dst, [])
  else
    let copied := src.properties.filter fun e =>
      copyDecision env dst.owner src.owner dst.properties e.1 e.2
    (!copied.isEmpty,
      ⟨dst.owner, dst.categories,
        copied.foldl (fun m e => mapSet m e.1 e.2) dst.properties⟩,
      copied.map fun e => Event.propertyChanged e.1.id)

/-- The source property map has pairwise distinct keys, as a JS `Map` always
does. -/
def keysDistinct : List (GraphProperty × JSVal) → Bool
  | [] => true
  | e :: rest => (rest.all fun f => !(decide (f.1 = e.1))) && keysDistinct rest

/-! ### Concrete instances used by witnesses and counterexamples -/

/-- Plain metadata: no default, no validator, mutable, removable, sharable. -/
def mdPlain : GraphMetadata := ⟨none, none, false, true, true, []⟩

/-- The property of the C1 scenario. -/
def p1c : GraphProperty := ⟨0, 10⟩

/-- Environment of the C1 scenario: the property's metadata (for every owner,
including the ownerless default) has default value 0 and is removable. -/
def env1c : Env :=
  ⟨fun _ _ => ⟨some 0, none, false, true, true, []⟩, fun _ _ => mdPlain,
    fun _ => .mk [] .snil⟩

/-- The ownerless object of the C1 scenario, before any `set`. -/
def o1c : GraphObject := ⟨none, [], []⟩

/-- An ownerless object with a stored value, for the C1 witness. -/
def o1w : GraphObject := ⟨none, [], [(p1c, some 5)]⟩

/-- The property of the C2 witness scenario (§8: default 7 via the chain). -/
def p2c : GraphProperty := ⟨0, 10⟩

/-- Category B of the §8 chain scenario. -/
def catB2 : GraphCategory := .base 1 100

/-- Category A, based on B, of the §8 chain scenario. -/
def catA2 : GraphCategory := .derived 2 101 catB2

/-- Environment of the §8 chain scenario: B's per-graph metadata owns the
property with value 7. -/
def env2c : Env :=
  ⟨fun _ _ => mdPlain,
    fun c _ => if c = catB2 then ⟨none, none, false, true, true, [(p2c, some 7)]⟩ else mdPlain,
    fun _ => .mk [] .snil⟩

/-- The object of the §8 chain scenario: owner graph 3, category A only. -/
def o2c : GraphObject := ⟨some 3, [catA2], []⟩

/-- The property of the C3 witness. -/
def p3c : GraphProperty := ⟨0, 30⟩

/-- A plain environment for the C3 and C9 witnesses. -/
def envPlain : Env := ⟨fun _ _ => mdPlain, fun _ _ => mdPlain, fun _ => .mk [] .snil⟩

/-- Initial object of the C3 witness. -/
def o3c : GraphObject := ⟨none, [], [(p3c, some 1)]⟩

/-- Sentinel-free source object for the C3 witness. -/
def src3 : GraphObject := ⟨none, [], [(p3c, some 4)]⟩

/-- Operation sequence of the C3 witness, including a sentinel assignment and
a property copy. -/
def ops3 : List Op := [.setP p3c (some 2), .setP p3c none, .copyProps src3]

/-- The property of the C4 counterexample. -/
def p4c : GraphProperty := ⟨0, 40⟩

/-- The object of the C4 counterexample: it already stores exactly 5. -/
def o4c : GraphObject := ⟨none, [], [(p4c, some 5)]⟩

/-- The schema's own category (id 1) of the C6 witness. -/
def catS6 : GraphCategory := .base 1 1

/-- The descendant's category with the same id 1, of the C6 witness. -/
def catC6 : GraphCategory := .base 2 1

/-- The C6 witness schema: defines id 1 directly and has a child that also
defines id 1. -/
def s6 : GraphSchema := .mk [catS6] (.scons (.mk [catC6] .snil) .snil)

/-- The ownerless object of the C7 failing input. -/
def o7c : GraphObject := ⟨none, [], []⟩

/-- An owned object whose graph's schema does not define the requested id,
the second C7 failing input. -/
def o7d : GraphObject := ⟨some 1, [], []⟩

/-- The property of the C8 scenario. -/
def p8c : GraphProperty := ⟨0, 80⟩

/-- Environment of the C8 scenario: for destination graph 2 the property's
metadata is immutable (and sharable); elsewhere plain. -/
def env8c : Env :=
  ⟨fun _ og => match og with
      | some 2 => ⟨none, none, true, true, true, []⟩
      | _ => mdPlain,
    fun _ _ => mdPlain, fun _ => .mk [] .snil⟩

/-- Source object X of the C8 scenario: owner graph 1, stores 3. -/
def x8 : GraphObject := ⟨some 1, [], [(p8c, some 3)]⟩

/-- Destination object Y of the C8 scenario: owner graph 2, stores 9. -/
def y8 : GraphObject := ⟨some 2, [], [(p8c, some 9)]⟩

/-- The property used by the C9 witness operations. -/
def p9c : GraphProperty := ⟨0, 90⟩

/-- The C9 witness object, already owned by graph 1. -/
def o9c : GraphObject := ⟨some 1, [], []⟩

/-- The C9 witness operations, including a second `_setOwner` with a different
graph. -/
def ops9 : List Op := [.setOwner 2, .setP p9c (some 4), .setOwner 5, .deleteP p9c]

/-- The property of the C10 witness. -/
def p10c : GraphProperty := ⟨0, 11⟩

/-- Environment of the C10 witness: the metadata is immutable and its
validator rejects every value. -/
def env10c : Env :=
  ⟨fun _ _ => ⟨none, some (fun _ => false), true, true, true, []⟩,
    fun _ _ => mdPlain, fun _ => .mk [] .snil⟩

/-- The C10 witness object: it already stores exactly 5. -/
def o10c : GraphObject := ⟨none, [], [(p10c, some 5)]⟩

/-! ## Helper lemmas -/

/-- Looking up a key other than the one just written is unchanged. -/
theorem plookup_mapSet_ne {l : List (GraphProperty × JSVal)} {p q : GraphProperty}
    {v : JSVal} (h : q ≠ p) : plookup (mapSet l p v) q = plookup l q := by
  induction l with
  | nil => simp [mapSet, plookup, Ne.symm h]
  | cons e rest ih =>
    obtain ⟨a, w⟩ := e
    by_cases hap : a = p
    · subst hap
      simp [mapSet, plookup, Ne.symm h]
    · by_cases haq : a = q
      · simp [mapSet, plookup, hap, haq, h]
      · simp [mapSet, plookup, hap, haq, ih]

/-- A value found in a sentinel-free map is defined. -/
theorem plookup_allSome {l : List (GraphProperty × JSVal)} {p : GraphProperty} {w : JSVal}
    (hall : (l.all fun e => e.2.isSome) = true) (hl : plookup l p = some w) :
    w.isSome = true := by
  induction l with
  | nil => simp [plookup] at hl
  | cons e rest ih =>
    obtain ⟨a, u⟩ := e
    simp only [List.all_cons, Bool.and_eq_true] at hall
    simp only [plookup] at hl
    by_cases hap : a = p
    · rw [if_pos hap] at hl
      cases hl
      exact hall.1
    · rw [if_neg hap] at hl
      exact ih hall.2 hl

/-- Writing a defined value into a sentinel-free map keeps it sentinel-free. -/
theorem allSome_mapSet {l : List (GraphProperty × JSVal)} {p : GraphProperty} {v : JSVal}
    (hl : (l.all fun e => e.2.isSome) = true) (hv : v.isSome = true) :
    ((mapSet l p v).all fun e => e.2.isSome) = true := by
  induction l with
  | nil => simp [mapSet, hv]
  | cons e rest ih =>
    obtain ⟨a, w⟩ := e
    simp only [List.all_cons, Bool.and_eq_true] at hl
    by_cases hap : a = p
    · simp [mapSet, hap, hv, hl.2]
    · simp [mapSet, hap, hl.1, ih hl.2]

/-- Deleting from a sentinel-free map keeps it sentinel-free. -/
theorem allSome_mapDelete {l : List (GraphProperty × JSVal)} {p : GraphProperty}
    (hl : (l.all fun e => e.2.isSome) = true) :
    ((mapDelete l p).all fun e => e.2.isSome) = true := by
  induction l with
  | nil => simp [mapDelete]
  | cons e rest ih =>
    obtain ⟨a, w⟩ := e
    simp only [List.all_cons, Bool.and_eq_true] at hl
    by_cases hap : a = p
    · simp [mapDelete, hap, hl.2]
    · simp [mapDelete, hap, hl.1, ih hl.2]

/-- An `if` cascade with a shared branch collapses to a disjunction. -/
theorem if_if_eq_if_or {α : Type} (b c : Bool) (X W : α) :
    (if b then X else if c then X else W) = (if b || c then X else W) := by
  cases b <;> cases c <;> simp

/-! ## Claim theorems -/

/-- C1 is false on the code: for the spec's own scenario — property `p1c`
whose metadata (including the ownerless default metadata) has default value 0,
ownerless object `o1c` with no stored value — `get` returns no value, not the
ownerless default 0. -/
theorem c1_counterexample :
    GraphObject.get env1c o1c p1c = none ∧
    (env1c.createDefaultMetadata p1c).defaultValue = some 0 ∧
    decide (GraphObject.get env1c o1c p1c =
      (env1c.createDefaultMetadata p1c).defaultValue) = false :=
  ⟨by decide, by decide, by decide⟩

/-- C1 as amended: for every graph object with no owner, `get` returns exactly
the object's own stored value (no value when none is stored) — the ownerless
default metadata is never consulted by `get`. In the spec's scenario the reads
around `set`/`delete` therefore give: no value, then 5, then (after a `delete`
that does return true) no value again — not 0. -/
theorem c1_ownerless_get :
    (∀ env (o : GraphObject) p, o.owner = none →
      GraphObject.get env o p = (plookup o.properties p).join) ∧
    GraphObject.get env1c o1c p1c = none ∧
    GraphObject.get env1c (GraphObject.set env1c o1c p1c (some 5)).1 p1c = some 5 ∧
    (GraphObject.delete env1c (GraphObject.set env1c o1c p1c (some 5)).1 p1c).1 = true ∧
    GraphObject.get env1c
      (GraphObject.delete env1c (GraphObject.set env1c o1c p1c (some 5)).1 p1c).2.1 p1c
      = none := by
  refine ⟨?_, by decide, by decide, by decide, by decide⟩
  intro env o p h
  unfold GraphObject.get GraphObject.find
  rw [h]
  cases hj : (plookup o.properties p).join <;> simp [hj]

/-- Witness for the amended C1: an ownerless object holding 5 for the
property; `get` returns exactly the stored value. -/
theorem c1_ownerless_get_witness :
    o1w.owner = none ∧
    GraphObject.get env1c o1w p1c = (plookup o1w.properties p1c).join :=
  ⟨rfl, c1_ownerless_get.1 env1c o1w p1c rfl⟩

/-- C4 is false on the code: with mutable metadata and no validator, setting
the already-stored value 5 again raises no property-changed event, while the
claim's "otherwise" branch demands one. -/
theorem c4_counterexample :
    plookup o4c.properties p4c = some (some 5) ∧
    (envPlain.createDefaultMetadata p4c).isImmutable = false ∧
    (envPlain.createDefaultMetadata p4c).canValidate = false ∧
    GraphObject.set envPlain o4c p4c (some 5) = (o4c, []) ∧
    decide ((GraphObject.set envPlain o4c p4c (some 5)).2 =
      [Event.propertyChanged p4c.id]) = false :=
  ⟨by decide, by decide, by decide, by decide, by decide⟩

/-- C4 as amended: setting a non-sentinel value equal to the stored one is a
silent no-op; otherwise an existing value with immutable metadata, or a
rejecting validator, silently rejects the write; otherwise the value is
stored and one property-changed event carrying the property's id is raised. -/
theorem c4_set_amended : ∀ env o p (v : V),
    GraphObject.set env o p (some v) = setAmended env o p v := by
  intro env o p v
  unfold GraphObject.set setAmended
  simp only []
  by_cases h : (plookup o.properties p).join = some v
  · rw [if_pos h.symm, if_pos h]
  · rw [if_neg (fun hh => h hh.symm), if_neg h, if_if_eq_if_or]

/-- C5: `delete` behaves exactly as the spec states — false and unchanged when
no stored value exists or the resolved metadata is non-removable, otherwise it
removes the value, raises one property-changed event, and returns true. -/
theorem c5_delete_matches_spec : ∀ env o p,
    GraphObject.delete env o p = deleteSpec env o p := by
  intro env o p
  unfold GraphObject.delete deleteSpec
  simp only []
  cases hn : (plookup o.properties p).isNone <;>
    cases hr : (match o.owner with
      | some g => env.getMetadata p g
      | none => env.createDefaultMetadata p).isRemovable <;>
      simp [hn, hr]

/-- C7 fails on the code: `deleteCategory` called with a category id that does
not resolve (ownerless object, or owner whose schema does not define the id)
returns JavaScript `undefined`, not `false` or a category, contradicting the
method's own declared overload `(category: GraphCategoryIdLike):
GraphCategory | false`. -/
theorem c7_deleteCategoryById_unresolved :
    GraphObject.deleteCategoryById envPlain o7c 5 = (DelCatResult.undef, o7c, []) ∧
    GraphObject.deleteCategoryById envPlain o7d 5 = (DelCatResult.undef, o7d, []) :=
  ⟨by decide, by decide⟩

/-- C10: if the object already stores exactly the assigned value, `set`
returns with the state unchanged and no event, before any metadata is
consulted — the statement quantifies over every environment, including ones
whose metadata is immutable or whose validator rejects the value. -/
theorem c10_equal_value_noop : ∀ env o p (v : V),
    (plookup o.properties p).join = some v →
    GraphObject.set env o p (some v) = (o, []) := by
  intro env o p v h
  unfold GraphObject.set
  simp only []
  rw [if_pos h.symm]

/-- `delete` never changes the owner. -/
theorem delete_owner_eq (env : Env) (o : GraphObject) (p : GraphProperty) :
    (GraphObject.delete env o p).2.1.owner = o.owner := by
  unfold GraphObject.delete
  simp only []
  split
  · rfl
  · split <;> rfl

/-- `set` never changes the owner. -/
theorem set_owner_eq (env : Env) (o : GraphObject) (p : GraphProperty) (v : JSVal) :
    (GraphObject.set env o p v).1.owner = o.owner := by
  cases v with
  | none => exact delete_owner_eq env o p
  | some v =>
    unfold GraphObject.set
    simp only []
    split
    · rfl
    · split
      · rfl
      · split <;> rfl

/-- `addCategory` never changes the owner. -/
theorem addCategory_owner (o : GraphObject) (c : GraphCategory) :
    (GraphObject.addCategory o c).1.owner = o.owner := by
  unfold GraphObject.addCategory
  split <;> rfl

/-- `deleteCategory` with an instance never changes the owner. -/
theorem deleteCategoryObj_owner (o : GraphObject) (c : GraphCategory) :
    (GraphObject.deleteCategoryObj o c).2.1.owner = o.owner := by
  unfold GraphObject.deleteCategoryObj
  split <;> rfl

/-- `deleteCategory` with an id never changes the owner. -/
theorem deleteCategoryById_owner (env : Env) (o : GraphObject) (i : CatId) :
    (GraphObject.deleteCategoryById env o i).2.1.owner = o.owner := by
  unfold GraphObject.deleteCategoryById
  split
  · rfl
  · split <;> rfl

/-- The `copyCategories` loop changes neither owner nor properties. -/
theorem copyCatsLoop_state : ∀ (entries : List GraphCategory) (dst : GraphObject),
    (copyCategoriesLoop dst entries).1.owner = dst.owner ∧
    (copyCategoriesLoop dst entries).1.properties = dst.properties := by
  intro entries
  induction entries with
  | nil => intro dst; exact ⟨rfl, rfl⟩
  | cons c rest ih =>
    intro dst
    unfold copyCategoriesLoop
    split
    · exact ih dst
    · simp only []
      exact ih ⟨dst.owner, dst.categories ++ [c], dst.properties⟩

/-- The `copyProperties` loop never changes the owner. -/
theorem copyPropsLoop_owner (env : Env) (downer sowner : Option GraphId) :
    ∀ (entries : List (GraphProperty × JSVal)) (dst : GraphObject),
    (copyPropertiesLoop env downer sowner dst entries).1.owner = dst.owner := by
  intro entries
  induction entries with
  | nil => intro dst; rfl
  | cons e rest ih =>
    intro dst
    obtain ⟨p, value⟩ := e
    unfold copyPropertiesLoop
    simp only []
    split
    · exact ih dst
    · split
      · exact ih dst
      · exact ih ⟨dst.owner, dst.categories, mapSet dst.properties p value⟩

/-- `delete` keeps the property map sentinel-free. -/
theorem noSentinel_delete {env : Env} {o : GraphObject} {p : GraphProperty}
    (h : noSentinel o = true) : noSentinel (GraphObject.delete env o p).2.1 = true := by
  unfold GraphObject.delete
  simp only []
  split
  · exact h
  · split
    · exact h
    · exact allSome_mapDelete h

/-- `set` keeps the property map sentinel-free: a sentinel argument deletes,
any other argument stores a defined value. -/
theorem noSentinel_set {env : Env} {o : GraphObject} {p : GraphProperty} {v : JSVal}
    (h : noSentinel o = true) : noSentinel (GraphObject.set env o p v).1 = true := by
  cases v with
  | none => exact noSentinel_delete h
  | some v =>
    unfold GraphObject.set
    simp only []
    split
    · exact h
    · split
      · exact h
      · split
        · exact h
        · exact allSome_mapSet h rfl

/-- The `copyProperties` loop keeps the destination sentinel-free when every
incoming value is defined. -/
theorem noSentinel_copyPropsLoop (env : Env) (downer sowner : Option GraphId) :
    ∀ (entries : List (GraphProperty × JSVal)) (dst : GraphObject),
    noSentinel dst = true → (entries.all fun e => e.2.isSome) = true →
    noSentinel (copyPropertiesLoop env downer sowner dst entries).1 = true := by
  intro entries
  induction entries with
  | nil => intro dst h _; exact h
  | cons e rest ih =>
    intro dst h hall
    obtain ⟨p, value⟩ := e
    simp only [List.all_cons, Bool.and_eq_true] at hall
    unfold copyPropertiesLoop
    simp only []
    split
    · exact ih dst h hall.2
    · split
      · exact ih dst h hall.2
      · exact ih ⟨dst.owner, dst.categories, mapSet dst.properties p value⟩
          (allSome_mapSet h hall.1) hall.2

/-- Every acceptable public operation keeps the property map sentinel-free. -/
theorem noSentinel_applyOp {env : Env} {o : GraphObject} {op : Op}
    (h : noSentinel o = true) (hop : opOK op = true) :
    noSentinel (applyOp env o op) = true := by
  cases op with
  | setP p v => exact noSentinel_set h
  | deleteP p => exact noSentinel_delete h
  | addCat c =>
    simp only [applyOp]
    unfold GraphObject.addCategory
    split
    · exact h
    · exact h
  | delCatObj c =>
    simp only [applyOp]
    unfold GraphObject.deleteCategoryObj
    split
    · exact h
    · exact h
  | delCatId i =>
    simp only [applyOp]
    unfold GraphObject.deleteCategoryById
    split
    · exact h
    · split
      · exact h
      · exact h
  | copyProps src =>
    simp only [applyOp]
    unfold GraphObject.copyProperties
    simp only []
    split
    · exact h
    · exact noSentinel_copyPropsLoop env o.owner src.owner src.properties o h hop
  | copyCats src =>
    simp only [applyOp]
    unfold GraphObject.copyCategories
    simp only []
    split
    · exact h
    · unfold noSentinel
      rw [(copyCatsLoop_state src.categories o).2]
      exact h
  | setOwner g =>
    simp only [applyOp]
    unfold GraphObject.setOwner
    split
    · exact h
    · exact h

/-- C3: assigning the unset sentinel has exactly the effect of `delete` on the
object's state and events; consequently, starting from a sentinel-free object
and feeding only sentinel-free sources into `copyProperties`, no sequence of
public operations ever stores the unset sentinel in the property map. -/
theorem c3_unset_equiv_delete :
    (∀ env o p, GraphObject.set env o p none =
      ((GraphObject.delete env o p).2.1, (GraphObject.delete env o p).2.2)) ∧
    (∀ env (o : GraphObject) ops, noSentinel o = true → opsOK ops = true →
      noSentinel (runOps env o ops) = true) := by
  constructor
  · intro env o p
    rfl
  · intro env o ops
    induction ops generalizing o with
    | nil => intro h _; exact h
    | cons op rest ih =>
      intro h hops
      simp only [opsOK, List.all_cons, Bool.and_eq_true] at hops
      exact ih (applyOp env o op) (noSentinel_applyOp h hops.1) hops.2

/-- Witness for C3: a concrete sentinel-free object run through a sequence
containing a sentinel assignment and a property copy stays sentinel-free. -/
theorem c3_unset_equiv_delete_witness :
    noSentinel o3c = true ∧ opsOK ops3 = true ∧
    noSentinel (runOps envPlain o3c ops3) = true :=
  ⟨by decide, by decide, c3_unset_equiv_delete.2 envPlain o3c ops3 (by decide) (by decide)⟩

/-- A single public operation never clears or replaces an already-set owner. -/
theorem applyOp_owner {env : Env} {o : GraphObject} {g : GraphId} (op : Op)
    (h : o.owner = some g) : (applyOp env o op).owner = some g := by
  cases op with
  | setP p v =>
    simp only [applyOp]
    rw [set_owner_eq]
    exact h
  | deleteP p =>
    simp only [applyOp]
    rw [delete_owner_eq]
    exact h
  | addCat c =>
    simp only [applyOp]
    rw [addCategory_owner]
    exact h
  | delCatObj c =>
    simp only [applyOp]
    rw [deleteCategoryObj_owner]
    exact h
  | delCatId i =>
    simp only [applyOp]
    rw [deleteCategoryById_owner]
    exact h
  | copyProps src =>
    simp only [applyOp]
    unfold GraphObject.copyProperties
    simp only []
    split
    · exact h
    · rw [copyPropsLoop_owner]
      exact h
  | copyCats src =>
    simp only [applyOp]
    unfold GraphObject.copyCategories
    simp only []
    split
    · exact h
    · rw [(copyCatsLoop_state src.categories o).1]
      exact h
  | setOwner g2 =>
    simp only [applyOp]
    unfold GraphObject.setOwner
    rw [h]
    exact h

/-- C9: once a graph object's owner is non-empty it never changes — no
sequence of public operations, including repeated `_setOwner` calls with
different graphs, alters it. -/
theorem c9_owner_write_once : ∀ (env : Env) (ops : List Op) (o : GraphObject) (g : GraphId),
    o.owner = some g → (runOps env o ops).owner = some g := by
  intro env ops
  induction ops with
  | nil => intro o g h; exact h
  | cons op rest ih =>
    intro o g h
    exact ih (applyOp env o op) g (applyOp_owner op h)

/-- Witness for C9: an object owned by graph 1 keeps that owner across a
sequence that twice attempts `_setOwner` with different graphs. -/
theorem c9_owner_write_once_witness :
    o9c.owner = some 1 ∧ (runOps envPlain o9c ops9).owner = some 1 :=
  ⟨rfl, c9_owner_write_once envPlain ops9 o9c 1 rfl⟩

/-- Witness for C10: the object stores 5, the metadata is immutable and its
validator rejects everything, yet `set` of 5 is a silent success. -/
theorem c10_equal_value_noop_witness :
    (plookup o10c.properties p10c).join = some 5 ∧
    (env10c.createDefaultMetadata p10c).isImmutable = true ∧
    (env10c.createDefaultMetadata p10c).validate (some 5) = false ∧
    GraphObject.set env10c o10c p10c (some 5) = (o10c, []) :=
  ⟨by decide, by decide, by decide, c10_equal_value_noop env10c o10c p10c 5 (by decide)⟩

/-- `firstOwning` distributes over append, earlier list first. -/
theorem firstOwning_append (env : Env) (g : GraphId) (p : GraphProperty)
    (l₁ l₂ : List GraphCategory) :
    firstOwning env g p (l₁ ++ l₂) =
      match firstOwning env g p l₁ with
      | some c => some c
      | none => firstOwning env g p l₂ := by
  induction l₁ with
  | nil => rfl
  | cons c rest ih =>
    simp only [List.cons_append, firstOwning]
    cases hx : (env.catMetadata c g).hasOwn p <;> simp [hx, ih]

/-- The `basedOn`-chain walk of `_find` is the first owning member of the
flattened chain. -/
theorem chainFind_eq (env : Env) (g : GraphId) (p : GraphProperty) :
    ∀ c : GraphCategory,
    chainFind env g p c =
      (firstOwning env g p (chainList c)).map fun x => env.catMetadata x g := by
  intro c
  induction c with
  | base key i =>
    simp only [chainFind, chainList, firstOwning]
    cases hx : (env.catMetadata (.base key i) g).hasOwn p <;> simp [hx]
  | derived key i parent ih =>
    simp only [chainFind, chainList, firstOwning]
    cases hx : (env.catMetadata (.derived key i parent) g).hasOwn p <;> simp [hx, ih]

/-- The category loop of `_find` equals the spec-side owning-metadata search
over the flattened chains. -/
theorem catsFind_eq_spec (env : Env) (g : GraphId) (p : GraphProperty) :
    ∀ cats : List GraphCategory,
    catsFind env g p cats = specOwningMeta env g p cats := by
  intro cats
  induction cats with
  | nil => rfl
  | cons c rest ih =>
    simp only [catsFind, specOwningMeta, chainsOf] at ih ⊢
    rw [firstOwning_append, chainFind_eq]
    cases hx : firstOwning env g p (chainList c) <;> simp [hx, ih]

/-- C2: for every sentinel-free object, `get` resolves in exactly the spec's
order — own stored value, then the first owning category metadata along the
chains, then (with an owner) the per-owner default, and no value otherwise. -/
theorem c2_get_resolution_order : ∀ env o p, noSentinel o = true →
    GraphObject.get env o p = specResolve env o p := by
  intro env o p h
  unfold GraphObject.get specResolve GraphObject.find Env.getMetadata
  simp only []
  cases hl : plookup o.properties p with
  | some w =>
    have hw := plookup_allSome h hl
    obtain ⟨v, rfl⟩ := Option.isSome_iff_exists.mp hw
    simp [hl, Option.join]
  | none =>
    cases ho : o.owner with
    | none => simp [hl, ho, Option.join]
    | some g =>
      cases hf : specOwningMeta env g p o.categories with
      | none => simp [hl, ho, hf, Option.join, catsFind_eq_spec]
      | some m =>
        cases hm : m.mget p <;> simp [hl, ho, hf, hm, Option.join, catsFind_eq_spec]

/-- Witness for C2: the spec's §8 chain scenario — category A based on B, B's
per-graph metadata owning the property with value 7 — resolves to 7 in both
the embedded `get` and the spec-side resolution. -/
theorem c2_get_resolution_order_witness :
    noSentinel o2c = true ∧
    GraphObject.get env2c o2c p2c = specResolve env2c o2c p2c ∧
    GraphObject.get env2c o2c p2c = some 7 :=
  ⟨by decide, c2_get_resolution_order env2c o2c p2c (by decide), by decide⟩

/-- `findFirst` distributes over append, earlier list first. -/
theorem findFirst_append (l₁ l₂ : List GraphSchema) (i : CatId) :
    findFirst (l₁ ++ l₂) i =
      match findFirst l₁ i with
      | some c => some c
      | none => findFirst l₂ i := by
  induction l₁ with
  | nil => rfl
  | cons s rest ih =>
    simp only [List.cons_append, findFirst]
    cases hx : colGet (schemaCats s) i <;> simp [hx, ih]

mutual
/-- `findCategory` equals the spec-side self-first depth-first search. -/
theorem findCategory_eq_spec : ∀ (s : GraphSchema) (i : CatId),
    GraphSchema.findCategory s i = specFindCategory s i
  | .mk cats ch, i => by
    unfold GraphSchema.findCategory specFindCategory allSchemas
    simp only [findFirst, schemaCats]
    cases hx : colGet cats i with
    | some c => simp [hx]
    | none => simp [hx, findFirstL_eq_spec ch i]
/-- The descendant scan equals the spec-side child-list search. -/
theorem findFirstL_eq_spec : ∀ (l : SchemaList) (i : CatId),
    findFirst (allSchemasL l) i = specFindL l i
  | .snil, _ => rfl
  | .scons s rest, i => by
    unfold allSchemasL specFindL
    rw [findFirst_append]
    have hs : findFirst (allSchemas s) i = specFindCategory s i :=
      findCategory_eq_spec s i
    rw [hs, findFirstL_eq_spec rest i]
end

/-- A scan over schemas none of which resolves the id yields nothing. -/
theorem findFirst_eq_none : ∀ (l : List GraphSchema) (i : CatId),
    (∀ t ∈ l, colGet (schemaCats t) i = none) → findFirst l i = none := by
  intro l i
  induction l with
  | nil => intro _; rfl
  | cons t rest ih =>
    intro hall
    simp only [findFirst]
    rw [hall t (by simp)]
    exact ih fun u hu => hall u (by simp [hu])

/-- C6: `findCategory` scans the schema itself before any descendant,
descendants depth-first in registration order, returning the first match
(so a directly-defined id shadows the same id on a descendant), and absence
of any match yields the not-found result. -/
theorem c6_findCategory_order :
    (∀ s i, GraphSchema.findCategory s i = specFindCategory s i) ∧
    (∀ s i c, colGet (schemaCats s) i = some c →
      GraphSchema.findCategory s i = some c) ∧
    (∀ s i, (∀ t ∈ allSchemas s, colGet (schemaCats t) i = none) →
      GraphSchema.findCategory s i = none) := by
  refine ⟨fun s i => findCategory_eq_spec s i, ?_, ?_⟩
  · intro s i c h
    cases s with
    | mk cats ch =>
      unfold GraphSchema.findCategory allSchemas
      simp only [findFirst, schemaCats] at h ⊢
      simp [h]
  · intro s i h
    exact findFirst_eq_none (allSchemas s) i h

/-- Witness for C6: a schema defining id 1 directly, whose child also defines
id 1, resolves to its own category. -/
theorem c6_findCategory_order_witness :
    colGet (schemaCats s6) 1 = some catS6 ∧
    GraphSchema.findCategory s6 1 = some catS6 :=
  ⟨by decide, c6_findCategory_order.2.1 s6 1 catS6 (by decide)⟩

/-- The copy decision is unchanged by a write to a different property. -/
theorem copyDecision_mapSet_ne {env : Env} {downer sowner : Option GraphId}
    {props : List (GraphProperty × JSVal)} {p : GraphProperty} {v : JSVal}
    {q : GraphProperty} {w : JSVal} (h : q ≠ p) :
    copyDecision env downer sowner (mapSet props p v) q w =
      copyDecision env downer sowner props q w := by
  unfold copyDecision
  rw [plookup_mapSet_ne h]

/-- Splitting a distinct-keys hypothesis at the head. -/
theorem keysDistinct_cons {e : GraphProperty × JSVal}
    {rest : List (GraphProperty × JSVal)} (h : keysDistinct (e :: rest) = true) :
    (∀ f ∈ rest, f.1 ≠ e.1) ∧ keysDistinct rest = true := by
  simp only [keysDistinct, Bool.and_eq_true, List.all_eq_true] at h
  refine ⟨fun f hf => ?_, h.2⟩
  have hx := h.1 f hf
  simp only [Bool.not_eq_true'] at hx
  exact of_decide_eq_false hx

/-- The `copyProperties` loop computes exactly the spec-side description: it
writes the pairs selected by `copyDecision` (evaluated against the incoming
destination map — legitimate because a JS `Map` has distinct keys), raises one
event per written pair, and reports whether anything was written. -/
theorem copyLoop_eq_spec (env : Env) (downer sowner : Option GraphId) :
    ∀ (entries : List (GraphProperty × JSVal)) (dst : GraphObject),
    keysDistinct entries = true →
    copyPropertiesLoop env downer sowner dst entries =
      (⟨dst.owner, dst.categories,
          (entries.filter fun e =>
            copyDecision env downer sowner dst.properties e.1 e.2).foldl
            (fun m e => mapSet m e.1 e.2) dst.properties⟩,
        (entries.filter fun e =>
          copyDecision env downer sowner dst.properties e.1 e.2).map
          (fun e => Event.propertyChanged e.1.id),
        !(entries.filter fun e =>
          copyDecision env downer sowner dst.properties e.1 e.2).isEmpty) := by
  intro entries
  induction entries with
  | nil =>
    intro dst _
    simp [copyPropertiesLoop]
  | cons e rest ih =>
    intro dst hk
    obtain ⟨hne, hkrest⟩ := keysDistinct_cons hk
    obtain ⟨p, value⟩ := e
    unfold copyPropertiesLoop
    simp only []
    by_cases hv : value = (plookup dst.properties p).join
    · have hdec : copyDecision env downer sowner dst.properties p value = false := by
        unfold copyDecision
        simp only []
        rw [if_pos hv]
      rw [if_pos hv, ih dst hkrest]
      simp [List.filter_cons, hdec]
    · rw [if_neg hv]
      by_cases hs :
          copySkip env downer sowner ((plookup dst.properties p).join) p value = true
      · have hdec : copyDecision env downer sowner dst.properties p value = false := by
          unfold copyDecision
          simp only []
          rw [if_neg hv, hs]
          rfl
        rw [if_pos hs, ih dst hkrest]
        simp [List.filter_cons, hdec]
      · have hs' :
            copySkip env downer sowner ((plookup dst.properties p).join) p value = false :=
          Bool.eq_false_iff.mpr hs
        have hdec : copyDecision env downer sowner dst.properties p value = true := by
          unfold copyDecision
          simp only []
          rw [if_neg hv, hs']
          rfl
        rw [if_neg hs]
        rw [ih ⟨dst.owner, dst.categories, mapSet dst.properties p value⟩ hkrest]
        have hfilter :
            (rest.filter fun e =>
              copyDecision env downer sowner (mapSet dst.properties p value) e.1 e.2)
            = rest.filter fun e =>
              copyDecision env downer sowner dst.properties e.1 e.2 := by
          apply List.filter_congr
          intro f hf
          exact copyDecision_mapSet_ne (hne f hf)
        simp [List.filter_cons, hdec, hfilter]

/-- The loop's changed flag is true exactly when it raised an event. -/
theorem copyLoop_changed_iff (env : Env) (downer sowner : Option GraphId) :
    ∀ (entries : List (GraphProperty × JSVal)) (dst : GraphObject),
    ((copyPropertiesLoop env downer sowner dst entries).2.2 = true ↔
      (copyPropertiesLoop env downer sowner dst entries).2.1 ≠ []) := by
  intro entries
  induction entries with
  | nil =>
    intro dst
    simp [copyPropertiesLoop]
  | cons e rest ih =>
    intro dst
    obtain ⟨p, value⟩ := e
    unfold copyPropertiesLoop
    simp only []
    by_cases hv : value = (plookup dst.properties p).join
    · rw [if_pos hv]
      exact ih dst
    · rw [if_neg hv]
      by_cases hs :
          copySkip env downer sowner ((plookup dst.properties p).join) p value = true
      · rw [if_pos hs]
        exact ih dst
      · rw [if_neg hs]
        simp

/-- C8: `copyProperties` coincides with the spec-side description on every
distinct-keys source map; its boolean result is true exactly when at least one
value was written (one event per write); and in the spec's scenario — X
(owner 1) holding immutable-for-Y's-graph value 3, Y (owner 2) holding 9 —
the copy is skipped and Y keeps 9. -/
theorem c8_copyProperties :
    (∀ env dst src, keysDistinct src.properties = true →
      GraphObject.copyProperties env dst src = copyPropsSpec env dst src) ∧
    (∀ env dst src, ((GraphObject.copyProperties env dst src).1 = true ↔
      (GraphObject.copyProperties env dst src).2.2 ≠ [])) ∧
    GraphObject.copyProperties env8c y8 x8 = (false, y8, []) ∧
    plookup ((GraphObject.copyProperties env8c y8 x8).2.1).properties p8c
      = some (some 9) := by
  refine ⟨?_, ?_, by decide, by decide⟩
  · intro env dst src hk
    unfold GraphObject.copyProperties copyPropsSpec
    simp only []
    cases he : src.properties.isEmpty
    · simp only [Bool.false_eq_true, if_false]
      rw [copyLoop_eq_spec env dst.owner src.owner src.properties dst hk]
    · simp
  · intro env dst src
    unfold GraphObject.copyProperties
    simp only []
    cases he : src.properties.isEmpty
    · simp only [Bool.false_eq_true, if_false]
      exact copyLoop_changed_iff env dst.owner src.owner src.properties dst
    · simp

/-- Witness for C8: the scenario source map has distinct keys, and the
embedded `copyProperties` agrees with the spec-side function on it. -/
theorem c8_copyProperties_witness :
    keysDistinct x8.properties = true ∧
    GraphObject.copyProperties env8c y8 x8 = copyPropsSpec env8c y8 x8 :=
  ⟨by decide, c8_copyProperties.1 env8c y8 x8 (by decide)⟩

end GraphModel
